import Mathlib

/-!
Verification of the chunked response codec of the eth2-crawler repository
(`crawler/rpc/request/handle_response.go`, package `reqresp`).

The response handler built by `MakeResponseHandler` reads chunks
(`result byte | uvarint size | payload`) off a byte stream through a bounded
reader, enforces per-result-code size ceilings, dispatches each chunk to a
caller-supplied handler, and guarantees closure of the output stream.

The embedding below models the input stream as a list of byte values, threads
the bounded reader's state explicitly, and records the observable actions of a
run (reads with the reader's single-byte mode, handler invocations, closes of
the output stream and of per-chunk compression wrappers) as an event trace.
The chunk handler, the compression capability, and the outcome of closing a
compression wrapper are parameters of the run: a handler invocation is
abstracted by how many bytes it consumes from its payload view and whether it
returns an error.
-/

namespace reqresp

/-- Failures a read can produce: `eof` models `io.EOF` surfaced unchanged from
the underlying stream, `budget` models the bounded reader's budget-exceeded
failure (distinguishable from end-of-stream), `unexpectedEOF` models
`io.ErrUnexpectedEOF`, and `overflow` models the overflow error of
`encoding/binary.ReadUvarint`. -/
inductive RdErr where
  | eof
  | budget
  | unexpectedEOF
  | overflow
deriving DecidableEq, Repr

/-- Modelled from the spec: the Bounded Phased Reader (`BufLimitReader`), whose
definition is not under `src/` (only its caller `MakeResponseHandler` is).
Per spec §4.1 it wraps the raw stream — here `stream`, the list of remaining
byte values — keeps a budget `N` of bytes readable before the caller
re-authorizes more, and has a single-byte mode `PerRead` under which every
read call returns at most one byte and the budget applies per read call
instead of being consumed. -/
structure BufLimitReader where
  stream : List Nat
  N : Nat
  PerRead : Bool
deriving DecidableEq, Repr

/-- Modelled from the spec: a single-byte read on the Bounded Phased Reader.
Exceeding the budget yields a failure distinguishable from end-of-stream;
otherwise end-of-stream from the underlying stream is surfaced unchanged.
In single-byte mode the budget is applied per read call and not consumed. -/
def BufLimitReader.readByte (l : BufLimitReader) : Except RdErr (Nat × BufLimitReader) :=
  if l.N = 0 then .error .budget
  else
    match l.stream with
    | [] => .error .eof
    | b :: rest => .ok (b, ⟨rest, if l.PerRead then l.N else l.N - 1, l.PerRead⟩)

/-- Modelled from the spec: `NewBufLimitReader` wraps the input with the given
initial byte budget and single-byte mode off (the source calls it with
budget 0; the buffer-size argument only affects internal buffering and has no
observable effect on what a consumer reads). -/
def NewBufLimitReader (input : List Nat) (n : Nat) : BufLimitReader := ⟨input, n, false⟩

/-- Modelled from the spec: result code `Success = 0` (spec §3); the
`ResponseCode` constants are not under `src/`. -/
def SuccessCode : Nat := 0

/-- Modelled from the spec: result code `InvalidRequest = 1` (spec §3). -/
def InvalidReqCode : Nat := 1

/-- Modelled from the spec: result code `ServerError = 2` (spec §3). -/
def ServerErrCode : Nat := 2

/-- Modelled from the spec: the fixed ceiling on the declared size of
error-coded chunks; the constant is not under `src/`, spec §8 gives
`MaxErrSize = 256`. -/
def MaxErrSize : Nat := 256

/-- Which field of a chunk a read serves: the result byte, a byte of the
uvarint size prefix, or a byte of the payload view handed to the handler. -/
inductive Phase where
  | result
  | varint
  | payload
deriving DecidableEq, Repr

/-- Observable actions of a run: a read through the bounded reader (tagged
with the field it serves and the reader's `PerRead` mode at the call), a
chunk-handler invocation (with the parsed index, declared size and result
code, the reader's mode, and `avail`, every byte the payload view can still
yield to the handler), the close of a per-chunk compression wrapper, and a
close of the output stream `w`. -/
inductive Ev where
  | evRead (ph : Phase) (mode : Bool)
  | evInvoke (chunkIndex chunkSize resByte : Nat) (mode : Bool) (avail : List Nat)
  | evWrapClose (chunkIndex : Nat)
  | evCloseW
deriving DecidableEq, Repr

/-- Every byte a consumer can still obtain from the reader before it signals
an error: with the budget consumed per byte this is the first `N` bytes of the
stream; in single-byte mode the budget never decreases, so any positive budget
lets the whole stream be read. -/
def BufLimitReader.yieldAll (l : BufLimitReader) : List Nat :=
  if l.PerRead then (if l.N = 0 then [] else l.stream) else l.stream.take l.N

/-- The loop of `encoding/binary.ReadUvarint` (Go standard library), reading
LEB128 bytes through the bounded reader: `x` and `s` accumulate the decoded
bits, `first` records whether this is the first iteration (Go's `i > 0` test
for turning `io.EOF` into `io.ErrUnexpectedEOF`), and the fuel counts the
remaining iterations out of `binary.MaxVarintLen64 = 10` (on the final
iteration a terminating byte above 1 overflows). Each read call is recorded
with the reader's current mode. -/
def ruLoop (x s : Nat) (first : Bool) (l : BufLimitReader) :
    Nat → Except RdErr Nat × BufLimitReader × List Ev
  | 0 => (.error .overflow, l, [])
  | fuel + 1 =>
    match l.readByte with
    | .error e =>
      (.error (if first = false ∧ e = .eof then .unexpectedEOF else e), l,
        [Ev.evRead .varint l.PerRead])
    | .ok (b, l') =>
      if b < 0x80 then
        if fuel = 0 ∧ b > 1 then (.error .overflow, l', [Ev.evRead .varint l.PerRead])
        else (.ok (x ||| (b <<< s)), l', [Ev.evRead .varint l.PerRead])
      else
        let r := ruLoop (x ||| ((b % 0x80) <<< s)) (s + 7) false l' fuel
        (r.1, r.2.1, Ev.evRead .varint l.PerRead :: r.2.2)

/-- `binary.ReadUvarint` on the bounded reader: run the loop with an empty
accumulator for up to 10 bytes. -/
def ReadUvarint (l : BufLimitReader) : Except RdErr Nat × BufLimitReader × List Ev :=
  ruLoop 0 0 true l 10

/-- The chunk handler's reads, abstracted byte-wise: attempt to read `n` bytes
from the chunk's payload view, stopping at the first failing read. Returns the
bytes obtained, the reader afterwards, and the read events (one per read call,
including a final failing one). -/
def readN (l : BufLimitReader) : Nat → List Nat × BufLimitReader × List Ev
  | 0 => ([], l, [])
  | n + 1 =>
    match l.readByte with
    | .error _ => ([], l, [Ev.evRead .payload l.PerRead])
    | .ok (b, l') =>
      let r := readN l' n
      (b :: r.1, r.2.1, Ev.evRead .payload l.PerRead :: r.2.2)

/-- Abstraction of one `ResponseChunkHandler` invocation: given the already
parsed chunk index, declared size and result code, the model determines how
many bytes the handler reads from its payload view (`consume`) and whether it
returns an error (`err`, with an abstract error payload). -/
structure HandlerStep where
  consume : Nat
  err : Option Nat
deriving DecidableEq, Repr

/-- The model of a caller-supplied `ResponseChunkHandler`: chunk index,
declared size and result code determine the invocation's behavior. -/
def ChunkHandler := Nat → Nat → Nat → HandlerStep

/-- The error values the response handler can return, each carrying exactly
the data the corresponding Go error does:
`resultByteError` is Go's `failed to read chunk %d result byte: %w`;
`varintError` is the bare error returned by `binary.ReadUvarint`, unwrapped;
`errSizeExceeded` is `chunk size %d of chunk %d exceeds error size limit %d`;
`chunkSizeExceeded` is `chunk size %d of chunk %d exceeds chunk limit %d`;
`handlerError` is the chunk handler's own error, returned as-is;
`wrapperCloseError` is `failed to close response writer for chunk` (which
names no chunk index). -/
inductive Err where
  | resultByteError (chunkIndex : Nat) (e : RdErr)
  | varintError (e : RdErr)
  | errSizeExceeded (chunkSize chunkIndex limit : Nat)
  | chunkSizeExceeded (chunkSize chunkIndex limit : Nat)
  | handlerError (e : Nat)
  | wrapperCloseError
deriving DecidableEq, Repr

/-- Whether the Go error message behind this error value names the chunk
index. -/
def Err.namesChunkIndex : Err → Bool
  | .resultByteError _ _ => true
  | .errSizeExceeded _ _ _ => true
  | .chunkSizeExceeded _ _ _ => true
  | _ => false

/-- Whether a run's outcome is a chunk-handler failure. -/
def isHandlerErr : Except Err Unit → Bool
  | .error (.handlerError _) => true
  | _ => false

/-- Outcome of one iteration of the chunk loop: either the whole invocation
finishes (`done`, successfully or with an error) or it proceeds to the next
chunk (`next`) with the reader as the handler left it. -/
inductive StepOut where
  | done (res : Except Err Unit) (evs : List Ev)
  | next (evs : List Ev) (l : BufLimitReader)

/-- The tail of one loop iteration, from the point where the chunk header has
been decoded and its size validated: `headEvs` are the header's read events and
`l6` the reader with its budget set to the validated ceiling. The handler is
invoked on the payload view; on handler failure the per-chunk writer (the
compression wrapper when compression is configured, otherwise the output
stream `w` itself) is closed with its error discarded and the handler's error
is propagated; on handler success with compression the wrapper is closed, a
failure of which (`ccf chunkIndex`) aborts the whole invocation; otherwise the
loop proceeds to the next chunk. -/
def processChunk (comp : Bool) (ccf : Nat → Bool) (handleChunk : ChunkHandler)
    (chunkIndex chunkSize resByte : Nat) (headEvs : List Ev) (l6 : BufLimitReader) : StepOut :=
  let hs := handleChunk chunkIndex chunkSize resByte
  let inv := Ev.evInvoke chunkIndex chunkSize resByte l6.PerRead l6.yieldAll
  let pr := readN l6 hs.consume
  match hs.err with
  | some e =>
    .done (.error (.handlerError e))
      (headEvs ++ inv :: pr.2.2 ++ [if comp then Ev.evWrapClose chunkIndex else Ev.evCloseW])
  | none =>
    if comp then
      if ccf chunkIndex then
        .done (.error .wrapperCloseError) (headEvs ++ inv :: pr.2.2 ++ [Ev.evWrapClose chunkIndex])
      else .next (headEvs ++ inv :: pr.2.2 ++ [Ev.evWrapClose chunkIndex]) pr.2.1
    else .next (headEvs ++ inv :: pr.2.2) pr.2.1

/-- One iteration of the loop body of `MakeResponseHandler`, mirroring the
source statement by statement: set the budget to 1 and read the result byte
(`io.EOF` is clean termination, any other failure is wrapped with the chunk
index); set budget 1 and single-byte mode, decode the uvarint size, reset
single-byte mode, and return the bare error on failure; classify the result
code and check the declared size against `MaxErrSize` for
`InvalidRequest`/`ServerError` chunks or against `maxChunkContentSize` for all
others, failing with the size-limit error otherwise; set the budget to the
validated ceiling, invoke the handler on the payload view; on handler failure
close the per-chunk writer (the compression wrapper when compression is
configured, otherwise the output stream `w` itself), discarding that close's
error, and propagate the handler's error; on handler success with compression
close the compression wrapper, a failure of which (`ccf chunkIndex`) aborts
the whole invocation. -/
def stepIter (maxChunkContentSize : Nat) (comp : Bool) (ccf : Nat → Bool)
    (handleChunk : ChunkHandler) (chunkIndex : Nat) (blr : BufLimitReader) : StepOut :=
  let l1 : BufLimitReader := { blr with N := 1 }
  let rbEv := Ev.evRead .result l1.PerRead
  match l1.readByte with
  | .error .eof => .done (.ok ()) [rbEv]
  | .error e => .done (.error (.resultByteError chunkIndex e)) [rbEv]
  | .ok (resByte, l2) =>
    let l3 : BufLimitReader := { l2 with N := 1, PerRead := true }
    let ru := ReadUvarint l3
    let l5 : BufLimitReader := { ru.2.1 with PerRead := false }
    match ru.1 with
    | .error e => .done (.error (.varintError e)) (rbEv :: ru.2.2)
    | .ok chunkSize =>
      let cont : BufLimitReader → StepOut :=
        processChunk comp ccf handleChunk chunkIndex chunkSize resByte (rbEv :: ru.2.2)
      if resByte = InvalidReqCode ∨ resByte = ServerErrCode then
        if chunkSize > MaxErrSize then
          .done (.error (.errSizeExceeded chunkSize chunkIndex MaxErrSize)) (rbEv :: ru.2.2)
        else cont { l5 with N := MaxErrSize }
      else
        if chunkSize > maxChunkContentSize then
          .done (.error (.chunkSizeExceeded chunkSize chunkIndex maxChunkContentSize))
            (rbEv :: ru.2.2)
        else cont { l5 with N := maxChunkContentSize }

/-- The chunk loop of `MakeResponseHandler`: iterate `stepIter` while fuel
remains, where the fuel is `maxChunkCount - chunkIndex`; exhausted fuel ends
the loop successfully. -/
def runLoop (maxChunkContentSize : Nat) (comp : Bool) (ccf : Nat → Bool)
    (handleChunk : ChunkHandler) : Nat → Nat → BufLimitReader → Except Err Unit × List Ev
  | _, 0, _ => (.ok (), [])
  | chunkIndex, fuel + 1, blr =>
    match stepIter maxChunkContentSize comp ccf handleChunk chunkIndex blr with
    | .done res evs => (res, evs)
    | .next evs l7 =>
      let out := runLoop maxChunkContentSize comp ccf handleChunk (chunkIndex + 1) fuel l7
      (out.1, evs ++ out.2)

/-- The response handler built by `MakeResponseHandler maxChunkCount
maxChunkContentSize comp`, run on an input stream: the deferred close of the
output stream `w` is registered first and therefore appended to the trace on
every exit path; with `maxChunkCount = 0` the body returns success before
touching the input; otherwise the chunk loop runs over a fresh bounded reader
with initial budget 0. `comp` states whether a compression capability is
configured and `ccf i` whether closing the compression wrapper of chunk `i`
fails. -/
def MakeResponseHandler (maxChunkCount maxChunkContentSize : Nat) (comp : Bool)
    (ccf : Nat → Bool) (handleChunk : ChunkHandler) (input : List Nat) :
    Except Err Unit × List Ev :=
  let body :=
    if maxChunkCount = 0 then (.ok (), [])
    else runLoop maxChunkContentSize comp ccf handleChunk 0 maxChunkCount
      (NewBufLimitReader input 0)
  (body.1, body.2 ++ [Ev.evCloseW])

/-- LEB128 encoding of an unsigned integer, per the spec §6 wire format: each
byte carries the low 7 bits, with the high bit set while more bytes follow
(the encoder counterpart of `binary.ReadUvarint`). -/
def encodeUvarint (x : Nat) : List Nat :=
  if h : x < 0x80 then [x] else (x % 0x80 + 0x80) :: encodeUvarint (x / 0x80)
termination_by x
decreasing_by exact Nat.div_lt_self (by omega) (by omega)

/-- Wire encoding of one response chunk, per the spec §6 grammar: result byte,
uvarint size, then that many payload bytes. -/
def encodeChunk (c : Nat) (p : List Nat) : List Nat :=
  c :: (encodeUvarint p.length ++ p)

/-- Wire encoding of a whole response: chunks back to back. -/
def encodeChunks : List (Nat × List Nat) → List Nat
  | [] => []
  | (c, p) :: cs => encodeChunk c p ++ encodeChunks cs

/-- The size ceiling the source applies to a decoded chunk: the fixed
`MaxErrSize` for `InvalidRequest`/`ServerError` chunks, the caller-supplied
content ceiling for every other result code. -/
def ceilFor (maxChunkContentSize c : Nat) : Nat :=
  if c = InvalidReqCode ∨ c = ServerErrCode then MaxErrSize else maxChunkContentSize

/-- Number of closes of the output stream `w` recorded in a trace. -/
def countCloseW (evs : List Ev) : Nat :=
  evs.countP fun e => e == Ev.evCloseW

/-- The handler invocations of a trace, projected to chunk index, declared
size and result code, in order. -/
def invokes (evs : List Ev) : List (Nat × Nat × Nat) :=
  evs.filterMap fun e =>
    match e with
    | Ev.evInvoke i s c _ _ => some (i, s, c)
    | _ => none

/-- The handler invocations a run over the given chunks should produce,
starting at the given chunk index. -/
def invokesOf : List (Nat × List Nat) → Nat → List (Nat × Nat × Nat)
  | [], _ => []
  | (c, p) :: cs, idx => (idx, p.length, c) :: invokesOf cs (idx + 1)

/-- The single-byte-mode discipline an event must satisfy: a read runs in
single-byte mode exactly when it serves the uvarint size prefix, and the
reader handed to the handler is never in single-byte mode. -/
def modeInv : Ev → Prop
  | Ev.evRead ph m => m = true ↔ ph = Phase.varint
  | Ev.evInvoke _ _ _ m _ => m = false
  | _ => True

/-- Validity of a list of chunks for a run starting at chunk index `idx`: each
declared size is at or below its applicable ceiling (and below `2 ^ 64`, the
range of the wire size field), the handler succeeds on the chunk consuming
exactly its payload, and, when compression is configured, closing the chunk's
wrapper succeeds. -/
def validChunks (maxChunkContentSize : Nat) (comp : Bool) (ccf : Nat → Bool)
    (handleChunk : ChunkHandler) : List (Nat × List Nat) → Nat → Bool
  | [], _ => true
  | (c, p) :: cs, idx =>
    decide (p.length ≤ ceilFor maxChunkContentSize c) && decide (p.length < 2 ^ 64) &&
      decide (handleChunk idx p.length c = ⟨p.length, none⟩) && (!comp || !ccf idx) &&
      validChunks maxChunkContentSize comp ccf handleChunk cs (idx + 1)

/-- The exact event trace of a run over validly encoded chunks starting at
chunk index `idx`: per chunk, the result-byte read, the single-byte-mode
uvarint reads, the handler invocation (whose payload view offers the rest of
the stream up to the ceiling-sized budget), the handler's payload reads, and,
with compression, the wrapper close. -/
def eventsOf (maxChunkContentSize : Nat) (comp : Bool) :
    List (Nat × List Nat) → Nat → List Ev
  | [], _ => []
  | (c, p) :: cs, idx =>
    Ev.evRead .result false ::
      (List.replicate (encodeUvarint p.length).length (Ev.evRead .varint true) ++
        Ev.evInvoke idx p.length c false
            ((p ++ encodeChunks cs).take (ceilFor maxChunkContentSize c)) ::
          (List.replicate p.length (Ev.evRead .payload false) ++
            ((if comp then [Ev.evWrapClose idx] else []) ++
              eventsOf maxChunkContentSize comp cs (idx + 1))))

/-- A chunk handler that always succeeds without reading anything. -/
def hNone : ChunkHandler := fun _ _ _ => ⟨0, none⟩

/-- A chunk handler that always succeeds after consuming exactly the declared
size. -/
def hExact : ChunkHandler := fun _ s _ => ⟨s, none⟩

/-- A chunk handler that always fails (with error payload 7) without reading. -/
def hFail : ChunkHandler := fun _ _ _ => ⟨0, some 7⟩

/-- A compression capability whose wrapper closes always succeed. -/
def ccfNone : Nat → Bool := fun _ => false

/-! ### Basic reader lemmas -/

theorem readByte_perRead {l l' : BufLimitReader} {b : Nat}
    (h : l.readByte = .ok (b, l')) : l'.PerRead = l.PerRead := by
  unfold BufLimitReader.readByte at h
  split at h
  · exact absurd h (by simp)
  · cases hs : l.stream with
    | nil => simp [hs] at h
    | cons c rest => simp [hs] at h; simp [← h.2]

theorem readByte_cons {bs : List Nat} {b n : Nat} {pr : Bool} (hn : n ≠ 0) :
    BufLimitReader.readByte ⟨b :: bs, n, pr⟩ =
      .ok (b, ⟨bs, if pr then n else n - 1, pr⟩) := by
  simp [BufLimitReader.readByte, hn]

theorem readByte_nil {n : Nat} {pr : Bool} (hn : n ≠ 0) :
    BufLimitReader.readByte ⟨[], n, pr⟩ = .error .eof := by
  simp [BufLimitReader.readByte, hn]

/-! ### Bit accumulation -/

theorem lor_split (v s a : Nat) :
    (a ||| ((v % 0x80) <<< s)) ||| ((v / 0x80) <<< (s + 7)) = a ||| (v <<< s) := by
  have hdiv : v / 0x80 = v >>> 7 := by
    rw [Nat.shiftRight_eq_div_pow]
  have hmod : v % 0x80 = v % 2 ^ 7 := by norm_num
  rw [hdiv, hmod]
  apply Nat.eq_of_testBit_eq
  intro i
  simp only [Nat.testBit_lor, Nat.testBit_shiftLeft, Nat.testBit_mod_two_pow,
    Nat.testBit_shiftRight]
  rcases Nat.lt_or_ge i s with hi | hi
  · have h1 : ¬ s ≤ i := by omega
    have h2 : ¬ s + 7 ≤ i := by omega
    simp [h1, h2]
  · rcases Nat.lt_or_ge i (s + 7) with hi7 | hi7
    · have h2 : ¬ s + 7 ≤ i := by omega
      have h3 : i - s < 7 := by omega
      simp [hi, h2, h3]
    · have h3 : ¬ i - s < 7 := by omega
      have h4 : 7 + (i - (s + 7)) = i - s := by omega
      simp [hi, hi7, h3, h4]

/-! ### Encoder facts -/

theorem encodeUvarint_lt (x : Nat) (hx : x < 0x80) : encodeUvarint x = [x] := by
  unfold encodeUvarint
  simp [hx]

theorem encodeUvarint_ge (x : Nat) (hx : ¬ x < 0x80) :
    encodeUvarint x = (x % 0x80 + 0x80) :: encodeUvarint (x / 0x80) := by
  conv_lhs => unfold encodeUvarint
  simp [hx]

/-! ### The uvarint decoder on well-formed and on truncated input -/

theorem ruLoop_enc : ∀ fuel v x s first rest n, 0 < n → 0 < fuel → v < 2 ^ (7 * fuel - 6) →
    ruLoop x s first ⟨encodeUvarint v ++ rest, n, true⟩ fuel =
      (.ok (x ||| (v <<< s)), ⟨rest, n, true⟩,
        List.replicate (encodeUvarint v).length (Ev.evRead .varint true)) := by
  intro fuel
  induction fuel with
  | zero => intro v x s first rest n _ hf; omega
  | succ fuel ih =>
    intro v x s first rest n hn _ hv
    have hn' : n ≠ 0 := by omega
    by_cases hsmall : v < 0x80
    · rw [encodeUvarint_lt v hsmall]
      have hb : ¬ (fuel = 0 ∧ v > 1) := by
        rintro ⟨hf0, hv1⟩
        subst hf0
        have h1 : 7 * (0 + 1) - 6 = 1 := by norm_num
        rw [h1] at hv
        norm_num at hv
        omega
      simp only [List.cons_append, List.nil_append, ruLoop, readByte_cons hn']
      simp [hsmall, hb]
    · rw [encodeUvarint_ge v hsmall]
      have hfuel : 0 < fuel := by
        by_contra hf
        have hf0 : fuel = 0 := by omega
        subst hf0
        have h1 : 7 * (0 + 1) - 6 = 1 := by norm_num
        rw [h1] at hv
        norm_num at hv
        omega
      have hv' : v / 0x80 < 2 ^ (7 * fuel - 6) := by
        apply (Nat.div_lt_iff_lt_mul (show 0 < (0x80 : Nat) by norm_num)).mpr
        have h2 : 7 * (fuel + 1) - 6 = (7 * fuel - 6) + 7 := by omega
        rw [h2, pow_add] at hv
        calc v < 2 ^ (7 * fuel - 6) * 2 ^ 7 := hv
        _ = 2 ^ (7 * fuel - 6) * 0x80 := by norm_num
      have hbige : ¬ (v % 0x80 + 0x80 < 0x80) := by omega
      simp only [List.cons_append, ruLoop, readByte_cons hn']
      simp only [hbige, if_false, if_true]
      rw [ih (v / 0x80) (x ||| ((v % 0x80 + 0x80) % 0x80) <<< s) (s + 7) false rest n hn
        hfuel hv']
      have hmm : (v % 0x80 + 0x80) % 0x80 = v % 0x80 := by omega
      rw [hmm, lor_split]
      simp [List.replicate_succ]

theorem ruLoop_trunc : ∀ tail fuel x s first n, 0 < n → tail.length < fuel →
    (∀ b ∈ tail, 0x80 ≤ b) →
    ruLoop x s first ⟨tail, n, true⟩ fuel =
      (.error (if tail.isEmpty ∧ first = true then RdErr.eof else RdErr.unexpectedEOF),
        ⟨[], n, true⟩, List.replicate (tail.length + 1) (Ev.evRead .varint true)) := by
  intro tail
  induction tail with
  | nil =>
    intro fuel x s first n hn hf _
    have hn' : n ≠ 0 := by omega
    cases fuel with
    | zero => omega
    | succ fuel =>
      simp only [ruLoop, readByte_nil hn']
      cases first <;> simp
  | cons b bs ih =>
    intro fuel x s first n hn hf hb
    have hn' : n ≠ 0 := by omega
    cases fuel with
    | zero => simp at hf
    | succ fuel =>
      have hbge : 0x80 ≤ b := hb b (by simp)
      have hblt : ¬ b < 0x80 := by omega
      simp only [ruLoop, readByte_cons hn']
      simp only [hblt, if_false, if_true]
      rw [ih fuel (x ||| (b % 0x80) <<< s) (s + 7) false n hn
        (by simp only [List.length_cons] at hf; omega)
        (fun c hc => hb c (by simp [hc]))]
      simp [List.replicate_succ]

theorem ruLoop_events : ∀ fuel x s first l,
    ∃ k, (ruLoop x s first l fuel).2.2 = List.replicate k (Ev.evRead .varint l.PerRead) ∧
      (ruLoop x s first l fuel).2.1.PerRead = l.PerRead := by
  intro fuel
  induction fuel with
  | zero => intro x s first l; exact ⟨0, rfl, rfl⟩
  | succ fuel ih =>
    intro x s first l
    simp only [ruLoop]
    cases hr : l.readByte with
    | error e => exact ⟨1, rfl, rfl⟩
    | ok p =>
      obtain ⟨b, l'⟩ := p
      have hpr : l'.PerRead = l.PerRead := readByte_perRead hr
      by_cases hb : b < 0x80
      · by_cases hov : fuel = 0 ∧ b > 1
        · simp only [hb, hov, if_true]
          exact ⟨1, rfl, hpr⟩
        · simp only [hb, hov, if_true, if_false]
          exact ⟨1, rfl, hpr⟩
      · simp only [hb, if_false]
        obtain ⟨k, hk, hp⟩ := ih (x ||| (b % 0x80) <<< s) (s + 7) false l'
        refine ⟨k + 1, ?_, by rw [hp, hpr]⟩
        simp [hk, hpr, List.replicate_succ]

/-! ### Handler reads -/

theorem readN_exact : ∀ p rest n, p.length ≤ n →
    readN ⟨p ++ rest, n, false⟩ p.length =
      (p, ⟨rest, n - p.length, false⟩, List.replicate p.length (Ev.evRead .payload false)) := by
  intro p
  induction p with
  | nil => intro rest n _; simp [readN]
  | cons b bs ih =>
    intro rest n hlen
    simp only [List.length_cons] at hlen
    have hn' : n ≠ 0 := by omega
    simp only [List.length_cons, List.cons_append, readN, readByte_cons hn']
    rw [ih rest (if false = true then n else n - 1) (by simp; omega)]
    simp [List.replicate_succ]
    omega

theorem readN_events : ∀ n l,
    ∃ k, (readN l n).2.2 = List.replicate k (Ev.evRead .payload l.PerRead) ∧
      (readN l n).2.1.PerRead = l.PerRead := by
  intro n
  induction n with
  | zero => intro l; exact ⟨0, rfl, rfl⟩
  | succ n ih =>
    intro l
    simp only [readN]
    cases hr : l.readByte with
    | error e => exact ⟨1, rfl, rfl⟩
    | ok p =>
      obtain ⟨b, l'⟩ := p
      have hpr : l'.PerRead = l.PerRead := readByte_perRead hr
      obtain ⟨k, hk, hp⟩ := ih l'
      refine ⟨k + 1, ?_, by rw [hp, hpr]⟩
      simp [hk, hpr, List.replicate_succ]

/-! ### One loop iteration on shaped input -/

theorem stepIter_clean (mccs : Nat) (comp : Bool) (ccf : Nat → Bool)
    (handleChunk : ChunkHandler) (idx n0 : Nat) :
    stepIter mccs comp ccf handleChunk idx ⟨[], n0, false⟩ =
      .done (.ok ()) [Ev.evRead .result false] := rfl

theorem stepIter_trunc (mccs : Nat) (comp : Bool) (ccf : Nat → Bool)
    (handleChunk : ChunkHandler) (idx c n0 : Nat) (tail : List Nat)
    (htail : ∀ b ∈ tail, 0x80 ≤ b) (hlen : tail.length < 10) :
    stepIter mccs comp ccf handleChunk idx ⟨c :: tail, n0, false⟩ =
      .done (.error (.varintError (if tail.isEmpty then RdErr.eof else RdErr.unexpectedEOF)))
        (Ev.evRead .result false :: List.replicate (tail.length + 1) (Ev.evRead .varint true)) := by
  simp only [stepIter]
  rw [readByte_cons one_ne_zero]
  simp only [ReadUvarint]
  rw [ruLoop_trunc tail 10 0 0 true 1 one_pos hlen htail]
  simp

theorem stepIter_reject (mccs : Nat) (comp : Bool) (ccf : Nat → Bool)
    (handleChunk : ChunkHandler) (idx c s n0 : Nat) (rest : List Nat)
    (h64 : s < 2 ^ 64) (hgt : s > ceilFor mccs c) :
    stepIter mccs comp ccf handleChunk idx ⟨c :: (encodeUvarint s ++ rest), n0, false⟩ =
      .done
        (.error (if c = InvalidReqCode ∨ c = ServerErrCode then
          Err.errSizeExceeded s idx MaxErrSize else Err.chunkSizeExceeded s idx mccs))
        (Ev.evRead .result false ::
          List.replicate (encodeUvarint s).length (Ev.evRead .varint true)) := by
  have hs' : s < 2 ^ (7 * 10 - 6) := by norm_num; exact h64
  simp only [stepIter]
  rw [readByte_cons one_ne_zero]
  simp only [ReadUvarint]
  rw [ruLoop_enc 10 s 0 0 true rest 1 one_pos (by norm_num) hs']
  by_cases hc : c = InvalidReqCode ∨ c = ServerErrCode
  · rw [ceilFor, if_pos hc] at hgt
    simp [hc, hgt]
  · rw [ceilFor, if_neg hc] at hgt
    simp [hc, hgt]

theorem stepIter_accept (mccs : Nat) (comp : Bool) (ccf : Nat → Bool)
    (handleChunk : ChunkHandler) (idx c s n0 : Nat) (rest : List Nat)
    (h64 : s < 2 ^ 64) (hle : s ≤ ceilFor mccs c) :
    stepIter mccs comp ccf handleChunk idx ⟨c :: (encodeUvarint s ++ rest), n0, false⟩ =
      (let pr := readN ⟨rest, ceilFor mccs c, false⟩ (handleChunk idx s c).consume
       let evs := Ev.evRead .result false ::
         (List.replicate (encodeUvarint s).length (Ev.evRead .varint true) ++
           Ev.evInvoke idx s c false (rest.take (ceilFor mccs c)) :: pr.2.2)
       match (handleChunk idx s c).err with
       | some e =>
         StepOut.done (.error (.handlerError e))
           (evs ++ [if comp then Ev.evWrapClose idx else Ev.evCloseW])
       | none =>
         if comp then
           if ccf idx then StepOut.done (.error .wrapperCloseError) (evs ++ [Ev.evWrapClose idx])
           else StepOut.next (evs ++ [Ev.evWrapClose idx]) pr.2.1
         else StepOut.next evs pr.2.1) := by
  have hs' : s < 2 ^ (7 * 10 - 6) := by norm_num; exact h64
  simp only [stepIter]
  rw [readByte_cons one_ne_zero]
  simp only [ReadUvarint]
  rw [ruLoop_enc 10 s 0 0 true rest 1 one_pos (by norm_num) hs']
  simp only [Nat.zero_or, Nat.shiftLeft_zero]
  by_cases hc : c = InvalidReqCode ∨ c = ServerErrCode
  · rw [ceilFor, if_pos hc] at hle
    have hng : ¬ MaxErrSize < s := by omega
    simp only [ceilFor, if_pos hc]
    rw [if_neg hng]
    simp [processChunk, BufLimitReader.yieldAll]
  · rw [ceilFor, if_neg hc] at hle
    have hng : ¬ mccs < s := by omega
    simp only [ceilFor, if_neg hc]
    rw [if_neg hng]
    simp [processChunk, BufLimitReader.yieldAll]

/-! ### Trace utilities -/

theorem countCloseW_append (a b : List Ev) :
    countCloseW (a ++ b) = countCloseW a + countCloseW b := by
  simp [countCloseW]

theorem countCloseW_replicate_read (k : Nat) (ph : Phase) (m : Bool) :
    countCloseW (List.replicate k (Ev.evRead ph m)) = 0 := by
  simp [countCloseW, List.countP_replicate]

theorem modeInv_replicate_read {ev : Ev} {k : Nat} {ph : Phase} {m : Bool}
    (hm : m = true ↔ ph = Phase.varint) (h : ev ∈ List.replicate k (Ev.evRead ph m)) :
    modeInv ev := by
  rw [List.mem_replicate] at h
  rw [h.2]
  exact hm

/-! ### Shape of an iteration on an arbitrary reader state -/

theorem processChunk_shape (comp : Bool) (ccf : Nat → Bool) (handleChunk : ChunkHandler)
    (idx cs rb : Nat) (headEvs : List Ev) (l6 : BufLimitReader)
    (hcnt : countCloseW headEvs = 0)
    (hwr : ∀ i, Ev.evWrapClose i ∉ headEvs)
    (hmd : ∀ ev ∈ headEvs, modeInv ev)
    (hpr : l6.PerRead = false) :
    (∀ res evs, processChunk comp ccf handleChunk idx cs rb headEvs l6 = .done res evs →
       countCloseW evs = (if isHandlerErr res = true ∧ comp = false then 1 else 0) ∧
       (comp = false → ∀ i, Ev.evWrapClose i ∉ evs) ∧
       (∀ ev ∈ evs, modeInv ev)) ∧
    (∀ evs l7, processChunk comp ccf handleChunk idx cs rb headEvs l6 = .next evs l7 →
       countCloseW evs = 0 ∧
       (comp = false → ∀ i, Ev.evWrapClose i ∉ evs) ∧
       (∀ ev ∈ evs, modeInv ev) ∧ l7.PerRead = false) := by
  obtain ⟨kp, hkp, hkpr⟩ := readN_events (handleChunk idx cs rb).consume l6
  have hmd' : ∀ ev ∈ Ev.evInvoke idx cs rb l6.PerRead l6.yieldAll ::
      (readN l6 (handleChunk idx cs rb).consume).2.2, modeInv ev := by
    intro ev hev
    rcases List.mem_cons.mp hev with h | h
    · rw [h]
      simp [modeInv, hpr]
    · rw [hkp, hpr] at h
      exact modeInv_replicate_read (by simp) h
  have hcnt' : countCloseW (Ev.evInvoke idx cs rb l6.PerRead l6.yieldAll ::
      (readN l6 (handleChunk idx cs rb).consume).2.2) = 0 := by
    rw [hkp]
    simp [countCloseW, List.countP_replicate]
  have hwr' : ∀ i, Ev.evWrapClose i ∉ Ev.evInvoke idx cs rb l6.PerRead l6.yieldAll ::
      (readN l6 (handleChunk idx cs rb).consume).2.2 := by
    intro i hmem
    rcases List.mem_cons.mp hmem with h | h
    · exact Ev.noConfusion h
    · rw [hkp] at h
      rw [List.mem_replicate] at h
      exact Ev.noConfusion h.2
  have hcntA : countCloseW (headEvs ++ Ev.evInvoke idx cs rb l6.PerRead l6.yieldAll ::
      (readN l6 (handleChunk idx cs rb).consume).2.2) = 0 := by
    rw [countCloseW_append, hcnt, hcnt']
  have hwrA : ∀ i, Ev.evWrapClose i ∉ headEvs ++ Ev.evInvoke idx cs rb l6.PerRead l6.yieldAll ::
      (readN l6 (handleChunk idx cs rb).consume).2.2 := by
    intro i hmem
    rcases List.mem_append.mp hmem with h | h
    · exact hwr i h
    · exact hwr' i h
  have hmdA : ∀ ev ∈ headEvs ++ Ev.evInvoke idx cs rb l6.PerRead l6.yieldAll ::
      (readN l6 (handleChunk idx cs rb).consume).2.2, modeInv ev := by
    intro ev hev
    rcases List.mem_append.mp hev with h | h
    · exact hmd ev h
    · exact hmd' ev h
  unfold processChunk
  cases herr : (handleChunk idx cs rb).err with
  | some e =>
    simp only [herr]
    refine ⟨?_, fun evs l7 h => StepOut.noConfusion h⟩
    intro res evs hdone
    injection hdone with h1 h2
    subst h1
    subst h2
    refine ⟨?_, ?_, ?_⟩
    · rw [countCloseW_append, hcntA]
      cases comp with
      | false => simp [isHandlerErr, countCloseW]
      | true => simp [isHandlerErr, countCloseW]
    · intro hcomp i hmem
      subst hcomp
      rcases List.mem_append.mp hmem with h | h
      · exact hwrA i h
      · simp at h
    · intro ev hev
      rcases List.mem_append.mp hev with h | h
      · exact hmdA ev h
      · cases comp <;> simp at hev h <;> rw [h] <;> exact trivial
  | none =>
    simp only [herr]
    cases comp with
    | true =>
      cases hcf : ccf idx with
      | true =>
        simp only [hcf, if_true, if_pos]
        refine ⟨?_, fun evs l7 h => StepOut.noConfusion h⟩
        intro res evs hdone
        injection hdone with h1 h2
        subst h1
        subst h2
        refine ⟨?_, ?_, ?_⟩
        · rw [countCloseW_append, hcntA]
          simp [isHandlerErr, countCloseW]
        · intro hcomp
          exact Bool.noConfusion hcomp
        · intro ev hev
          rcases List.mem_append.mp hev with h | h
          · exact hmdA ev h
          · simp at h
            rw [h]
            exact trivial
      | false =>
        simp only [hcf, if_true, if_false]
        refine ⟨fun res evs h => StepOut.noConfusion h, ?_⟩
        intro evs l7 hnext
        injection hnext with h1 h2
        subst h1
        subst h2
        refine ⟨?_, ?_, ?_, by rw [hkpr, hpr]⟩
        · rw [countCloseW_append, hcntA]
          simp [countCloseW]
        · intro hcomp
          exact Bool.noConfusion hcomp
        · intro ev hev
          rcases List.mem_append.mp hev with h | h
          · exact hmdA ev h
          · simp at h
            rw [h]
            exact trivial
    | false =>
      simp only [if_false]
      refine ⟨fun res evs h => StepOut.noConfusion h, ?_⟩
      intro evs l7 hnext
      injection hnext with h1 h2
      subst h1
      subst h2
      exact ⟨hcntA, fun _ => hwrA, hmdA, by rw [hkpr, hpr]⟩

theorem stepIter_shape (mccs : Nat) (comp : Bool) (ccf : Nat → Bool)
    (handleChunk : ChunkHandler) (idx : Nat) (blr : BufLimitReader)
    (hpr : blr.PerRead = false) :
    (∀ res evs, stepIter mccs comp ccf handleChunk idx blr = .done res evs →
       countCloseW evs = (if isHandlerErr res = true ∧ comp = false then 1 else 0) ∧
       (comp = false → ∀ i, Ev.evWrapClose i ∉ evs) ∧
       (∀ ev ∈ evs, modeInv ev)) ∧
    (∀ evs l7, stepIter mccs comp ccf handleChunk idx blr = .next evs l7 →
       countCloseW evs = 0 ∧
       (comp = false → ∀ i, Ev.evWrapClose i ∉ evs) ∧
       (∀ ev ∈ evs, modeInv ev) ∧ l7.PerRead = false) := by
  obtain ⟨st, n0, pr⟩ := blr
  have hpr' : pr = false := hpr
  subst hpr'
  cases st with
  | nil =>
    rw [show stepIter mccs comp ccf handleChunk idx ⟨[], n0, false⟩ =
      .done (.ok ()) [Ev.evRead .result false] from rfl]
    constructor
    · intro res evs h
      injection h with h1 h2
      subst h1
      subst h2
      refine ⟨by simp [isHandlerErr, countCloseW], ?_, ?_⟩
      · intro _ i hmem
        simp at hmem
      · intro ev hev
        simp at hev
        rw [hev]
        simp [modeInv]
    · exact fun evs l7 h => StepOut.noConfusion h
  | cons b rest =>
    obtain ⟨kv, hkv, hkvpr⟩ := ruLoop_events 10 0 0 true ⟨rest, 1, true⟩
    have hhc : countCloseW (Ev.evRead .result false ::
        (ruLoop 0 0 true ⟨rest, 1, true⟩ 10).2.2) = 0 := by
      rw [hkv]
      simp [countCloseW, List.countP_replicate]
    have hhw : ∀ i, Ev.evWrapClose i ∉ Ev.evRead .result false ::
        (ruLoop 0 0 true ⟨rest, 1, true⟩ 10).2.2 := by
      intro i hmem
      rcases List.mem_cons.mp hmem with h | h
      · exact Ev.noConfusion h
      · rw [hkv] at h
        rw [List.mem_replicate] at h
        exact Ev.noConfusion h.2
    have hhm : ∀ ev ∈ Ev.evRead .result false ::
        (ruLoop 0 0 true ⟨rest, 1, true⟩ 10).2.2, modeInv ev := by
      intro ev hev
      rcases List.mem_cons.mp hev with h | h
      · rw [h]
        simp [modeInv]
      · rw [hkv] at h
        exact modeInv_replicate_read (by simp) h
    simp only [stepIter, readByte_cons one_ne_zero, ReadUvarint]
    cases hru : (ruLoop 0 0 true ⟨rest, 1, true⟩ 10).1 with
    | error e =>
      simp only [hru]
      refine ⟨?_, fun evs l7 h => StepOut.noConfusion h⟩
      intro res evs h
      injection h with h1 h2
      subst h1
      subst h2
      exact ⟨by simpa [isHandlerErr] using hhc, fun _ i => hhw i, hhm⟩
    | ok cs =>
      simp only [hru]
      by_cases hc : b = InvalidReqCode ∨ b = ServerErrCode
      · rw [if_pos hc]
        by_cases hsz : cs > MaxErrSize
        · rw [if_pos hsz]
          refine ⟨?_, fun evs l7 h => StepOut.noConfusion h⟩
          intro res evs h
          injection h with h1 h2
          subst h1
          subst h2
          exact ⟨by simpa [isHandlerErr] using hhc, fun _ i => hhw i, hhm⟩
        · rw [if_neg hsz]
          exact processChunk_shape comp ccf handleChunk idx cs b _ _ hhc hhw hhm rfl
      · rw [if_neg hc]
        by_cases hsz : cs > mccs
        · rw [if_pos hsz]
          refine ⟨?_, fun evs l7 h => StepOut.noConfusion h⟩
          intro res evs h
          injection h with h1 h2
          subst h1
          subst h2
          exact ⟨by simpa [isHandlerErr] using hhc, fun _ i => hhw i, hhm⟩
        · rw [if_neg hsz]
          exact processChunk_shape comp ccf handleChunk idx cs b _ _ hhc hhw hhm rfl

theorem runLoop_shape (mccs : Nat) (comp : Bool) (ccf : Nat → Bool)
    (handleChunk : ChunkHandler) :
    ∀ fuel idx blr, blr.PerRead = false →
      countCloseW (runLoop mccs comp ccf handleChunk idx fuel blr).2 =
        (if isHandlerErr (runLoop mccs comp ccf handleChunk idx fuel blr).1 = true ∧ comp = false
         then 1 else 0) ∧
      (comp = false → ∀ i,
        Ev.evWrapClose i ∉ (runLoop mccs comp ccf handleChunk idx fuel blr).2) ∧
      (∀ ev ∈ (runLoop mccs comp ccf handleChunk idx fuel blr).2, modeInv ev) := by
  intro fuel
  induction fuel with
  | zero =>
    intro idx blr _
    refine ⟨by simp [runLoop, isHandlerErr, countCloseW], ?_, ?_⟩
    · intro _ i hmem
      simp [runLoop] at hmem
    · intro ev hev
      simp [runLoop] at hev
  | succ fuel ih =>
    intro idx blr hpr
    obtain ⟨hdone, hnext⟩ := stepIter_shape mccs comp ccf handleChunk idx blr hpr
    cases hstep : stepIter mccs comp ccf handleChunk idx blr with
    | done res evs =>
      obtain ⟨h1, h2, h3⟩ := hdone res evs hstep
      simp only [runLoop, hstep]
      exact ⟨h1, h2, h3⟩
    | next evs l7 =>
      obtain ⟨h1, h2, h3, h4⟩ := hnext evs l7 hstep
      obtain ⟨ih1, ih2, ih3⟩ := ih (idx + 1) l7 h4
      simp only [runLoop, hstep]
      refine ⟨?_, ?_, ?_⟩
      · rw [countCloseW_append, h1, ih1]
        simp
      · intro hcomp i hmem
        rcases List.mem_append.mp hmem with h | h
        · exact h2 hcomp i h
        · exact ih2 hcomp i h
      · intro ev hev
        rcases List.mem_append.mp hev with h | h
        · exact h3 ev h
        · exact ih3 ev h

/-! ### Invocation projections -/

theorem invokes_append (a b : List Ev) : invokes (a ++ b) = invokes a ++ invokes b := by
  simp [invokes]

theorem invokes_cons_read (ph : Phase) (m : Bool) (rest : List Ev) :
    invokes (Ev.evRead ph m :: rest) = invokes rest := by
  simp [invokes]

theorem invokes_cons_invoke (i s c : Nat) (m : Bool) (a : List Nat) (rest : List Ev) :
    invokes (Ev.evInvoke i s c m a :: rest) = (i, s, c) :: invokes rest := by
  simp [invokes]

theorem invokes_cons_wrap (i : Nat) (rest : List Ev) :
    invokes (Ev.evWrapClose i :: rest) = invokes rest := by
  simp [invokes]

theorem invokes_cons_closeW (rest : List Ev) :
    invokes (Ev.evCloseW :: rest) = invokes rest := by
  simp [invokes]

theorem invokes_replicate_read (k : Nat) (ph : Phase) (m : Bool) :
    invokes (List.replicate k (Ev.evRead ph m)) = [] := by
  induction k with
  | zero => rfl
  | succ k ih =>
    rw [List.replicate_succ, invokes_cons_read]
    exact ih

theorem invokesOf_fst : ∀ cs idx,
    (invokesOf cs idx).map (fun t => t.1) = List.range' idx cs.length := by
  intro cs
  induction cs with
  | nil => intro idx; rfl
  | cons hd cs ih =>
    intro idx
    obtain ⟨c, p⟩ := hd
    simp [invokesOf, List.range'_succ, ih (idx + 1)]

theorem invokes_eventsOf (mccs : Nat) (comp : Bool) : ∀ cs idx,
    invokes (eventsOf mccs comp cs idx) = invokesOf cs idx := by
  intro cs
  induction cs with
  | nil => intro idx; rfl
  | cons hd cs ih =>
    intro idx
    obtain ⟨c, p⟩ := hd
    cases comp <;>
      simp [eventsOf, invokes_append, invokes_replicate_read, invokes_cons_read,
        invokes_cons_invoke, invokes_cons_wrap, ih (idx + 1), invokesOf]

/-! ### A run over a valid encoding -/

theorem runLoop_validEnc (mccs : Nat) (comp : Bool) (ccf : Nat → Bool)
    (handleChunk : ChunkHandler) :
    ∀ cs idx fuel n0, cs.length ≤ fuel →
      validChunks mccs comp ccf handleChunk cs idx = true →
      runLoop mccs comp ccf handleChunk idx fuel ⟨encodeChunks cs, n0, false⟩ =
        (.ok (), eventsOf mccs comp cs idx ++
          (if cs.length < fuel then [Ev.evRead .result false] else [])) := by
  intro cs
  induction cs with
  | nil =>
    intro idx fuel n0 _ _
    cases fuel with
    | zero => simp [runLoop, eventsOf]
    | succ fuel =>
      simp only [encodeChunks, runLoop, stepIter_clean, eventsOf]
      simp
  | cons hd cs ih =>
    obtain ⟨c, p⟩ := hd
    intro idx fuel n0 hlen hval
    simp only [validChunks, Bool.and_eq_true, decide_eq_true_eq] at hval
    obtain ⟨⟨⟨⟨hle, h64⟩, hh⟩, hcf⟩, hrest⟩ := hval
    cases fuel with
    | zero => simp at hlen
    | succ fuel =>
      have hlen' : cs.length ≤ fuel := by
        simp only [List.length_cons] at hlen
        omega
      have henc : encodeChunks ((c, p) :: cs) =
          c :: (encodeUvarint p.length ++ (p ++ encodeChunks cs)) := by
        simp [encodeChunks, encodeChunk]
      have hiff : (((c, p) :: cs).length < fuel + 1) = (cs.length < fuel) := by
        simp only [List.length_cons]
        simp [Nat.succ_lt_succ_iff]
      cases comp with
      | false =>
        have hstep : stepIter mccs false ccf handleChunk idx
            ⟨c :: (encodeUvarint p.length ++ (p ++ encodeChunks cs)), n0, false⟩ =
            .next
              (Ev.evRead .result false ::
                (List.replicate (encodeUvarint p.length).length (Ev.evRead .varint true) ++
                  Ev.evInvoke idx p.length c false
                      ((p ++ encodeChunks cs).take (ceilFor mccs c)) ::
                    List.replicate p.length (Ev.evRead .payload false)))
              ⟨encodeChunks cs, ceilFor mccs c - p.length, false⟩ := by
          rw [stepIter_accept mccs false ccf handleChunk idx c p.length n0
            (p ++ encodeChunks cs) h64 hle]
          simp only [hh]
          rw [readN_exact p (encodeChunks cs) (ceilFor mccs c) hle]
          simp
        rw [henc]
        simp only [runLoop, hstep]
        rw [ih (idx + 1) fuel (ceilFor mccs c - p.length) hlen' hrest]
        simp only [eventsOf, hiff]
        simp [List.append_assoc]
      | true =>
        have hcf' : ccf idx = false := by
          simpa using hcf
        have hstep : stepIter mccs true ccf handleChunk idx
            ⟨c :: (encodeUvarint p.length ++ (p ++ encodeChunks cs)), n0, false⟩ =
            .next
              ((Ev.evRead .result false ::
                (List.replicate (encodeUvarint p.length).length (Ev.evRead .varint true) ++
                  Ev.evInvoke idx p.length c false
                      ((p ++ encodeChunks cs).take (ceilFor mccs c)) ::
                    List.replicate p.length (Ev.evRead .payload false))) ++
                [Ev.evWrapClose idx])
              ⟨encodeChunks cs, ceilFor mccs c - p.length, false⟩ := by
          rw [stepIter_accept mccs true ccf handleChunk idx c p.length n0
            (p ++ encodeChunks cs) h64 hle]
          simp only [hh]
          rw [readN_exact p (encodeChunks cs) (ceilFor mccs c) hle]
          simp [hcf']
        rw [henc]
        simp only [runLoop, hstep]
        rw [ih (idx + 1) fuel (ceilFor mccs c - p.length) hlen' hrest]
        simp only [eventsOf, hiff]
        simp [List.append_assoc]

/-! ### Claim theorems -/

/-- C9: with `maxChunkCount = 0` the response handler returns success
immediately without reading any input (the whole trace is the single deferred
close of the output stream, so no read and no handler invocation occurs), the
chunk handler is never invoked, and the output stream is still closed. -/
theorem c9_zero_chunk_count (mccs : Nat) (comp : Bool) (ccf : Nat → Bool)
    (handleChunk : ChunkHandler) (input : List Nat) :
    MakeResponseHandler 0 mccs comp ccf handleChunk input = (.ok (), [Ev.evCloseW]) ∧
    invokes (MakeResponseHandler 0 mccs comp ccf handleChunk input).2 = [] ∧
    countCloseW (MakeResponseHandler 0 mccs comp ccf handleChunk input).2 = 1 :=
  ⟨rfl, rfl, rfl⟩

/-- C2 counterexample: the claim says `Close` is called on the output stream
exactly once on every exit path, but on the handler-failure path with no
compression configured the per-chunk writer is the output stream itself, so it
is closed twice (once as the per-chunk writer, once by the deferred cleanup):
input `[0, 0]` (one empty chunk), a failing handler, no compression. -/
theorem c2_close_twice_counterexample :
    countCloseW (MakeResponseHandler 1 10 false ccfNone hFail [0, 0]).2 = 2 ∧
    countCloseW (MakeResponseHandler 1 10 false ccfNone hFail [0, 0]).2 ≠ 1 :=
  ⟨rfl, by decide⟩

/-- C2 amended: on every exit path the output stream is closed at least once;
it is closed exactly once unless the chunk handler fails while no compression
is configured, in which case it is closed exactly twice (the handler-failure
path closes the per-chunk writer, which without compression is the output
stream itself, before the deferred close runs). -/
theorem c2_close_count (mcc mccs : Nat) (comp : Bool) (ccf : Nat → Bool)
    (handleChunk : ChunkHandler) (input : List Nat) :
    countCloseW (MakeResponseHandler mcc mccs comp ccf handleChunk input).2 =
      if isHandlerErr (MakeResponseHandler mcc mccs comp ccf handleChunk input).1 = true ∧
          comp = false then 2 else 1 := by
  by_cases h0 : mcc = 0
  · subst h0
    simp [MakeResponseHandler, isHandlerErr, countCloseW]
  · have hsh := (runLoop_shape mccs comp ccf handleChunk mcc 0 (NewBufLimitReader input 0) rfl).1
    simp only [MakeResponseHandler, if_neg h0]
    rw [countCloseW_append, hsh]
    by_cases hx : isHandlerErr
        (runLoop mccs comp ccf handleChunk 0 mcc (NewBufLimitReader input 0)).1 = true ∧
        comp = false
    · rw [if_pos hx, if_pos hx]
      simp [countCloseW]
    · rw [if_neg hx, if_neg hx]
      simp [countCloseW]

/-- C1: the claim states a chunk's payload view never yields more than
`declaredSize` bytes and that with two back-to-back chunks, chunk 1's result
byte is not consumable from chunk 0's reader. The code instead bounds payload
reads by the ceiling `maxChunkContentSize`, not the validated declared size:
on the stream `[0x00, 0x01, 97, 0x00, 0x01, 98]` (two chunks of declared size
1) with `maxChunkContentSize = 10`, chunk 0's view offers `[97, 0, 1, 98]` —
4 bytes against a declared size of 1, including chunk 1's result byte `0` and
its payload byte `98`. The spec (§9, open question) records that bounding by
the declared size is the intended behavior, so this is a bug in the code. -/
theorem c1_payload_view_exceeds_declared_size :
    (MakeResponseHandler 2 10 false ccfNone hNone [0, 1, 97, 0, 1, 98]).2 =
      [Ev.evRead .result false, Ev.evRead .varint true,
       Ev.evInvoke 0 1 0 false [97, 0, 1, 98],
       Ev.evRead .result false, Ev.evRead .varint true,
       Ev.evInvoke 1 0 97 false [1, 98], Ev.evCloseW] ∧
    ¬ ([97, 0, 1, 98] : List Nat).length ≤ 1 :=
  ⟨rfl, by decide⟩

/-- C4 counterexample: the claim says a stream exhausted between the result
byte and the completion of the size prefix yields a failure reported with
chunk index context; the code returns the decode error bare (here `io.EOF`
itself, since no varint byte was available), which names no chunk index. -/
theorem c4_no_chunk_index_counterexample :
    (MakeResponseHandler 1 10 false ccfNone hNone [0]).1 =
      .error (.varintError .eof) ∧
    Err.namesChunkIndex (.varintError .eof) = false :=
  ⟨rfl, rfl⟩

/-- C4 amended: a stream that ends after a chunk's result byte but before its
size prefix completes makes the response handler return a decode failure — not
success — aborting the whole response; the error is the bare varint decode
error (`io.EOF` when no size byte was available, `io.ErrUnexpectedEOF`
otherwise) and carries no chunk index context. -/
theorem c4_truncated_varint_fails (mccs : Nat) (comp : Bool) (ccf : Nat → Bool)
    (handleChunk : ChunkHandler) (idx fuel c n0 : Nat) (tail : List Nat)
    (htail : ∀ b ∈ tail, 0x80 ≤ b) (hlen : tail.length < 10) :
    runLoop mccs comp ccf handleChunk idx (fuel + 1) ⟨c :: tail, n0, false⟩ =
      (.error (.varintError (if tail.isEmpty then RdErr.eof else RdErr.unexpectedEOF)),
        Ev.evRead .result false :: List.replicate (tail.length + 1) (Ev.evRead .varint true)) ∧
    Err.namesChunkIndex
      (.varintError (if tail.isEmpty then RdErr.eof else RdErr.unexpectedEOF)) = false := by
  constructor
  · have hstep := stepIter_trunc mccs comp ccf handleChunk idx c n0 tail htail hlen
    simp only [runLoop, hstep]
  · rfl

/-- C4 amended, witness: the truncated stream `[0x00, 0x80, 0x80]` (result
byte, then two continuation bytes of an unfinished varint). -/
theorem c4_truncated_varint_witness :
    runLoop 10 false ccfNone hNone 0 1 ⟨0 :: [128, 128], 0, false⟩ =
      (.error (.varintError RdErr.unexpectedEOF),
        [Ev.evRead .result false, Ev.evRead .varint true, Ev.evRead .varint true,
         Ev.evRead .varint true]) := by
  have h := (c4_truncated_varint_fails 10 false ccfNone hNone 0 0 0 0 [128, 128]
    (by decide) (by decide)).1
  simpa using h

/-- C3: for every decoded chunk header, error-coded chunks (`InvalidRequest`,
`ServerError`) are checked against the fixed `MaxErrSize` and all other result
codes against the caller-supplied `maxChunkContentSize`; a declared size above
the applicable ceiling aborts the whole response with an error carrying the
declared size, the chunk index and the limit, before the handler is invoked
(the trace holds only the header reads, no invocation); a declared size at or
below the ceiling reaches the handler invocation. -/
theorem c3_size_limit_policy (mccs : Nat) (comp : Bool) (ccf : Nat → Bool)
    (handleChunk : ChunkHandler) (idx fuel c s n0 : Nat) (rest : List Nat)
    (h64 : s < 2 ^ 64) :
    (s > ceilFor mccs c →
      runLoop mccs comp ccf handleChunk idx (fuel + 1)
          ⟨c :: (encodeUvarint s ++ rest), n0, false⟩ =
        (.error (if c = InvalidReqCode ∨ c = ServerErrCode then
            Err.errSizeExceeded s idx MaxErrSize else Err.chunkSizeExceeded s idx mccs),
         Ev.evRead .result false ::
           List.replicate (encodeUvarint s).length (Ev.evRead .varint true)) ∧
      invokes (runLoop mccs comp ccf handleChunk idx (fuel + 1)
          ⟨c :: (encodeUvarint s ++ rest), n0, false⟩).2 = []) ∧
    (s ≤ ceilFor mccs c →
      Ev.evInvoke idx s c false (rest.take (ceilFor mccs c)) ∈
        (runLoop mccs comp ccf handleChunk idx (fuel + 1)
          ⟨c :: (encodeUvarint s ++ rest), n0, false⟩).2) := by
  constructor
  · intro hgt
    have hstep := stepIter_reject mccs comp ccf handleChunk idx c s n0 rest h64 hgt
    simp only [runLoop, hstep]
    refine ⟨trivial, ?_⟩
    rw [invokes_cons_read, invokes_replicate_read]
  · intro hle
    have hstep := stepIter_accept mccs comp ccf handleChunk idx c s n0 rest h64 hle
    simp only [runLoop, hstep]
    cases herr : (handleChunk idx s c).err with
    | some e =>
      simp only [herr]
      simp
    | none =>
      simp only [herr]
      cases comp with
      | true =>
        cases hcf : ccf idx with
        | true => simp [hcf]
        | false => simp [hcf]
      | false => simp

/-- C3 witness: a `ServerError` chunk declaring size 257 against
`MaxErrSize = 256` is rejected with the error-size error before any handler
invocation. -/
theorem c3_size_limit_witness :
    runLoop 10 false ccfNone hNone 0 1 ⟨[2, 129, 2], 0, false⟩ =
      (.error (Err.errSizeExceeded 257 0 256),
       [Ev.evRead .result false, Ev.evRead .varint true, Ev.evRead .varint true]) := by
  have he : encodeUvarint 257 = [129, 2] := by
    rw [encodeUvarint_ge 257 (by norm_num)]
    norm_num
    exact encodeUvarint_lt 2 (by norm_num)
  have h := ((c3_size_limit_policy 10 false ccfNone hNone 0 0 2 257 0 []
    (by norm_num)).1 (by decide)).1
  rw [he] at h
  simpa [InvalidReqCode, ServerErrCode, MaxErrSize] using h

/-- C10: in every run, the reader's single-byte mode is active exactly for the
reads of the uvarint size prefix: every read serving the result byte or the
payload happens with `PerRead = false`, every size-prefix read with
`PerRead = true`, and the reader handed to the chunk handler is never in
single-byte mode. -/
theorem c10_single_byte_mode_discipline (mcc mccs : Nat) (comp : Bool) (ccf : Nat → Bool)
    (handleChunk : ChunkHandler) (input : List Nat) :
    ∀ ev ∈ (MakeResponseHandler mcc mccs comp ccf handleChunk input).2, modeInv ev := by
  intro ev hev
  simp only [MakeResponseHandler] at hev
  rcases List.mem_append.mp hev with h | h
  · by_cases h0 : mcc = 0
    · rw [if_pos h0] at h
      simp at h
    · rw [if_neg h0] at h
      exact (runLoop_shape mccs comp ccf handleChunk mcc 0
        (NewBufLimitReader input 0) rfl).2.2 ev h
  · simp at h
    rw [h]
    exact trivial

/-- C10 witness: the concrete run on `[0x00, 0x01, 0x61]` contains the
size-prefix read in single-byte mode, and the theorem applies to it. -/
theorem c10_single_byte_mode_witness :
    Ev.evRead .varint true ∈ (MakeResponseHandler 1 10 false ccfNone hNone [0, 1, 97]).2 ∧
    modeInv (Ev.evRead .varint true) :=
  ⟨by decide,
   c10_single_byte_mode_discipline 1 10 false ccfNone hNone [0, 1, 97]
     (Ev.evRead .varint true) (by decide)⟩

/-- C5: a response that is exhausted exactly at a chunk boundary — after `N`
complete, valid chunks and before any byte of a further result code — yields
success, with exactly the `N` handler invocations of those chunks and no
additional one, for any `N` from 0 up to `maxChunkCount - 1`. -/
theorem c5_clean_termination (mcc mccs : Nat) (comp : Bool) (ccf : Nat → Bool)
    (handleChunk : ChunkHandler) (cs : List (Nat × List Nat))
    (hlen : cs.length < mcc)
    (hval : validChunks mccs comp ccf handleChunk cs 0 = true) :
    (MakeResponseHandler mcc mccs comp ccf handleChunk (encodeChunks cs)).1 = .ok () ∧
    invokes (MakeResponseHandler mcc mccs comp ccf handleChunk (encodeChunks cs)).2 =
      invokesOf cs 0 := by
  have h0 : mcc ≠ 0 := by omega
  simp only [MakeResponseHandler, NewBufLimitReader, if_neg h0]
  rw [runLoop_validEnc mccs comp ccf handleChunk cs 0 mcc 0 (by omega) hval]
  refine ⟨rfl, ?_⟩
  rw [if_pos hlen]
  rw [invokes_append, invokes_append, invokes_eventsOf]
  simp [invokes_cons_read, invokes_cons_closeW, invokes]

/-- C5 witness: one valid chunk, `maxChunkCount = 2`, stream ending right
after it. -/
theorem c5_clean_termination_witness :
    (MakeResponseHandler 2 10 false ccfNone hExact (encodeChunks [(0, [42])])).1 = .ok () ∧
    invokes (MakeResponseHandler 2 10 false ccfNone hExact (encodeChunks [(0, [42])])).2 =
      [(0, 1, 0)] := by
  have h := c5_clean_termination 2 10 false ccfNone hExact [(0, [42])] (by decide) (by decide)
  exact ⟨h.1, h.2⟩

/-- C6: for every valid encoding of `N ≤ maxChunkCount` chunks with sizes at
or below their applicable ceilings, and every handler that succeeds consuming
exactly each chunk's payload, the handler is invoked exactly `N` times with
contiguous, strictly increasing, 0-based chunk indices and the run returns
success; concretely, input `[0x00, 0x05, 'h','e','l','l','o']` with
`maxChunkContentSize = 10` and no compression yields one invocation with
chunk index 0, declared size 5, code `Success`, a payload view offering
exactly `hello`, and a success result. -/
theorem c6_valid_encoding_iteration :
    (∀ (mcc mccs : Nat) (comp : Bool) (ccf : Nat → Bool) (handleChunk : ChunkHandler)
        (cs : List (Nat × List Nat)),
       cs.length ≤ mcc → validChunks mccs comp ccf handleChunk cs 0 = true →
       (MakeResponseHandler mcc mccs comp ccf handleChunk (encodeChunks cs)).1 = .ok () ∧
       invokes (MakeResponseHandler mcc mccs comp ccf handleChunk (encodeChunks cs)).2 =
         invokesOf cs 0 ∧
       (invokesOf cs 0).map (fun t => t.1) = List.range' 0 cs.length) ∧
    MakeResponseHandler 5 10 false ccfNone hExact [0, 5, 104, 101, 108, 108, 111] =
      (.ok (), [Ev.evRead .result false, Ev.evRead .varint true,
        Ev.evInvoke 0 5 0 false [104, 101, 108, 108, 111],
        Ev.evRead .payload false, Ev.evRead .payload false, Ev.evRead .payload false,
        Ev.evRead .payload false, Ev.evRead .payload false,
        Ev.evRead .result false, Ev.evCloseW]) := by
  constructor
  · intro mcc mccs comp ccf handleChunk cs hlen hval
    by_cases h0 : mcc = 0
    · subst h0
      have hcs : cs = [] := List.length_eq_zero.mp (by omega)
      subst hcs
      exact ⟨rfl, rfl, rfl⟩
    · simp only [MakeResponseHandler, NewBufLimitReader, if_neg h0]
      rw [runLoop_validEnc mccs comp ccf handleChunk cs 0 mcc 0 hlen hval]
      refine ⟨rfl, ?_, invokesOf_fst cs 0⟩
      by_cases hlt : cs.length < mcc
      · rw [if_pos hlt, invokes_append, invokes_append, invokes_eventsOf]
        simp [invokes_cons_read, invokes_cons_closeW, invokes]
      · rw [if_neg hlt, invokes_append, invokes_append, invokes_eventsOf]
        simp [invokes_cons_closeW, invokes]
  · rfl

/-- C6 witness: two valid chunks with compression configured and wrapper
closes succeeding. -/
theorem c6_valid_encoding_witness :
    (MakeResponseHandler 3 10 true ccfNone hExact
        (encodeChunks [(0, [42]), (2, [1, 2, 3])])).1 = .ok () ∧
    invokes (MakeResponseHandler 3 10 true ccfNone hExact
        (encodeChunks [(0, [42]), (2, [1, 2, 3])])).2 = [(0, 1, 0), (1, 3, 2)] := by
  have h := c6_valid_encoding_iteration.1 3 10 true ccfNone hExact [(0, [42]), (2, [1, 2, 3])]
    (by decide) (by decide)
  exact ⟨h.1, h.2.1⟩

/-- C7: when the chunk handler fails on a chunk, the per-chunk output writer
(the compression wrapper when compression is configured, otherwise the output
stream itself) is force-closed regardless of whether that close itself fails
(`ccf` is arbitrary — its error is discarded and the handler's error takes
precedence), the handler's error is the invocation's result, and no further
chunk is handled (the trace holds exactly one invocation). -/
theorem c7_handler_failure_fail_fast (mccs : Nat) (comp : Bool) (ccf : Nat → Bool)
    (handleChunk : ChunkHandler) (idx fuel c s n0 k e : Nat) (rest : List Nat)
    (h64 : s < 2 ^ 64) (hle : s ≤ ceilFor mccs c)
    (hh : handleChunk idx s c = ⟨k, some e⟩) :
    (runLoop mccs comp ccf handleChunk idx (fuel + 1)
        ⟨c :: (encodeUvarint s ++ rest), n0, false⟩).1 = .error (.handlerError e) ∧
    invokes (runLoop mccs comp ccf handleChunk idx (fuel + 1)
        ⟨c :: (encodeUvarint s ++ rest), n0, false⟩).2 = [(idx, s, c)] ∧
    (if comp then Ev.evWrapClose idx else Ev.evCloseW) ∈
      (runLoop mccs comp ccf handleChunk idx (fuel + 1)
        ⟨c :: (encodeUvarint s ++ rest), n0, false⟩).2 := by
  have hstep := stepIter_accept mccs comp ccf handleChunk idx c s n0 rest h64 hle
  simp only [hh] at hstep
  obtain ⟨kp, hkp, _⟩ := readN_events k ⟨rest, ceilFor mccs c, false⟩
  simp only [runLoop, hstep]
  refine ⟨trivial, ?_, ?_⟩
  · rw [invokes_append, invokes_cons_read, invokes_append, invokes_replicate_read,
      invokes_cons_invoke, hkp, invokes_replicate_read]
    cases comp <;> simp [invokes]
  · exact List.mem_append_right _ (by simp)

/-- C7 witness: a failing handler on a single empty `Success` chunk without
compression; the close falls on the output stream itself. -/
theorem c7_handler_failure_witness :
    (runLoop 10 false ccfNone hFail 0 1 ⟨0 :: (encodeUvarint 0 ++ []), 0, false⟩).1 =
      .error (.handlerError 7) ∧
    invokes (runLoop 10 false ccfNone hFail 0 1
        ⟨0 :: (encodeUvarint 0 ++ []), 0, false⟩).2 = [(0, 0, 0)] ∧
    (if false then Ev.evWrapClose 0 else Ev.evCloseW) ∈
      (runLoop 10 false ccfNone hFail 0 1 ⟨0 :: (encodeUvarint 0 ++ []), 0, false⟩).2 :=
  c7_handler_failure_fail_fast 10 false ccfNone hFail 0 0 0 0 0 0 7 []
    (by norm_num) (by decide) rfl

/-- C8: with compression configured and a succeeding handler, the per-chunk
compressing writer is closed immediately after the handler, before any event
of the next chunk's decoding; if that close fails the whole invocation fails
with the flush error; with no compression configured, no per-chunk wrapper
close ever occurs. -/
theorem c8_wrapper_close_policy :
    (∀ (mccs : Nat) (ccf : Nat → Bool) (handleChunk : ChunkHandler)
        (idx fuel c s n0 k : Nat) (rest : List Nat),
       s < 2 ^ 64 → s ≤ ceilFor mccs c → handleChunk idx s c = ⟨k, none⟩ →
       (ccf idx = true →
         runLoop mccs true ccf handleChunk idx (fuel + 1)
             ⟨c :: (encodeUvarint s ++ rest), n0, false⟩ =
           (.error .wrapperCloseError,
            (Ev.evRead .result false ::
              (List.replicate (encodeUvarint s).length (Ev.evRead .varint true) ++
                Ev.evInvoke idx s c false (rest.take (ceilFor mccs c)) ::
                  (readN ⟨rest, ceilFor mccs c, false⟩ k).2.2)) ++ [Ev.evWrapClose idx])) ∧
       (ccf idx = false →
         runLoop mccs true ccf handleChunk idx (fuel + 1)
             ⟨c :: (encodeUvarint s ++ rest), n0, false⟩ =
           ((runLoop mccs true ccf handleChunk (idx + 1) fuel
               (readN ⟨rest, ceilFor mccs c, false⟩ k).2.1).1,
            ((Ev.evRead .result false ::
              (List.replicate (encodeUvarint s).length (Ev.evRead .varint true) ++
                Ev.evInvoke idx s c false (rest.take (ceilFor mccs c)) ::
                  (readN ⟨rest, ceilFor mccs c, false⟩ k).2.2)) ++ [Ev.evWrapClose idx]) ++
              (runLoop mccs true ccf handleChunk (idx + 1) fuel
                (readN ⟨rest, ceilFor mccs c, false⟩ k).2.1).2))) ∧
    (∀ (mcc mccs : Nat) (ccf : Nat → Bool) (handleChunk : ChunkHandler) (input : List Nat)
        (i : Nat),
       Ev.evWrapClose i ∉ (MakeResponseHandler mcc mccs false ccf handleChunk input).2) := by
  constructor
  · intro mccs ccf handleChunk idx fuel c s n0 k rest h64 hle hh
    have hstep := stepIter_accept mccs true ccf handleChunk idx c s n0 rest h64 hle
    simp only [hh] at hstep
    constructor
    · intro hcf
      rw [hcf] at hstep
      simp only [eq_self_iff_true, if_true] at hstep
      simp only [runLoop, hstep]
    · intro hcf
      rw [hcf] at hstep
      simp only [Bool.false_eq_true, if_false, eq_self_iff_true, if_true] at hstep
      simp only [runLoop, hstep]
  · intro mcc mccs ccf handleChunk input i hmem
    simp only [MakeResponseHandler] at hmem
    rcases List.mem_append.mp hmem with h | h
    · by_cases h0 : mcc = 0
      · rw [if_pos h0] at h
        simp at h
      · rw [if_neg h0] at h
        exact (runLoop_shape mccs false ccf handleChunk mcc 0
          (NewBufLimitReader input 0) rfl).2.1 rfl i h
    · simp at h

/-- C8 witness: a single empty chunk with compression whose wrapper close
fails aborts the whole invocation with the flush error. -/
theorem c8_wrapper_close_witness :
    runLoop 10 true (fun _ => true) hExact 0 1 ⟨0 :: (encodeUvarint 0 ++ []), 0, false⟩ =
      (.error .wrapperCloseError,
       (Ev.evRead .result false ::
         (List.replicate (encodeUvarint 0).length (Ev.evRead .varint true) ++
           Ev.evInvoke 0 0 0 false (([] : List Nat).take (ceilFor 10 0)) ::
             (readN ⟨[], ceilFor 10 0, false⟩ 0).2.2)) ++ [Ev.evWrapClose 0]) :=
  ((c8_wrapper_close_policy.1 10 (fun _ => true) hExact 0 0 0 0 0 0 []
    (by norm_num) (by decide) rfl).1) rfl
